import Mathlib

/-!
# Semantic highlighter inference pipeline — shallow embedding

This file embeds the sentence-extraction inference pipeline of the
TorchServe semantic-highlighting handler
(`semantic_highlighting_handler.py` / `torchserve_handler.py`, whose
`_process_single`, `prepare_input_features`, `_get_agg_output` and
`_get_preds` are identical between the two files) and proves the spec's
claims about it.

Strings are embedded as `List Char` (Python `str`), machine floats as `ℚ`
(the decision rule only compares against the rational thresholds 1/2 and
1/20), tensors as nested lists.  External collaborators — the NLTK sentence
segmenter, the HuggingFace sub-word tokenizer and the BERT encoder plus
the trained classifier head — are opaque parameters of the pipeline
function; everything downstream of them is translated from the handler
source.  Python operations that raise at runtime (a `torch.zeros` call
with a negative dimension, `torch.max` of an empty tensor, indexing an
empty dataset) are modelled as `Option.none`.
-/

namespace SemanticHighlighter

/-- The sentinel sentence id for question / special / padding tokens
(`-100` throughout the handler). -/
def NONE : Int := -100

/-! ## Sentence span reconstruction (`_process_single`, position loop)

Python's `context.find(sent, current_pos)` returns the least index
`i ≥ current_pos` at which `sent` occurs in `context`, or `-1` (here:
`none`) when there is none. -/

/-- `sent` occurs in `ctx` at index `i` (Python substring occurrence). -/
def occursAt (ctx sent : List Char) (i : Nat) : Bool :=
  decide (i + sent.length ≤ ctx.length) && ((ctx.drop i).take sent.length == sent)

/-- Linear scan of candidate occurrence indices, `fuel` candidates starting
at `i` (no occurrence can start beyond `ctx.length`). -/
def findFromGo (ctx sent : List Char) : Nat → Nat → Option Nat
  | _, 0 => none
  | i, fuel + 1 => if occursAt ctx sent i then some i else findFromGo ctx sent (i + 1) fuel

/-- `ctx.find(sent, start)`: least occurrence index `≥ start`, `none`
(Python `-1`) when there is no occurrence at or after `start`. -/
def findFrom (ctx sent : List Char) (start : Nat) : Option Nat :=
  if start ≤ ctx.length then findFromGo ctx sent start (ctx.length + 1 - start) else none

/-- The cursor loop of `_process_single`: for each segmented sentence,
locate it at or after the cursor; on failure fall back to the cursor
itself; the end is always `start + len(sent)` and becomes the new
cursor. -/
def sentencePositionsFrom (ctx : List Char) : Nat → List (List Char) → List (Nat × Nat)
  | _, [] => []
  | cur, s :: rest =>
    let start := (findFrom ctx s cur).getD cur
    let stop := start + s.length
    (start, stop) :: sentencePositionsFrom ctx stop rest

/-- `sentence_positions` as computed in `_process_single` (cursor starts at 0). -/
def sentencePositions (ctx : List Char) (sents : List (List Char)) : List (Nat × Nat) :=
  sentencePositionsFrom ctx 0 sents

/-- Python slice `ctx[start:stop]`. -/
def slice (ctx : List Char) (start stop : Nat) : List Char :=
  (ctx.drop start).take (stop - start)

/-! ## Word-level sentence tagging (`_process_single`, data preparation) -/

/-- Python `str.split()`: split on runs of whitespace, dropping empties. -/
def splitWsAux : List Char → List Char → List (List Char)
  | [], acc => if acc.isEmpty then [] else [acc.reverse]
  | c :: cs, acc =>
    if c.isWhitespace then
      if acc.isEmpty then splitWsAux cs [] else acc.reverse :: splitWsAux cs []
    else splitWsAux cs (c :: acc)

/-- Whitespace split of one sentence. -/
def splitWs (s : List Char) : List (List Char) :=
  splitWsAux s []

/-- The flat word sequence: each sentence split on whitespace, concatenated. -/
def wordsOf (sents : List (List Char)) : List (List Char) :=
  (sents.map splitWs).flatten

/-- Parallel sentence-id sequence: every word carries its sentence index. -/
def wordSentenceIdsFrom : Nat → List (List Char) → List Int
  | _, [] => []
  | sid, s :: rest =>
    List.replicate (splitWs s).length (Int.ofNat sid) ++ wordSentenceIdsFrom (sid + 1) rest

/-- `word_level_sentence_ids` built in `_process_single`. -/
def wordSentenceIds (sents : List (List Char)) : List Int :=
  wordSentenceIdsFrom 0 sents

/-! ## Windowed feature builder (`prepare_input_features`)

The HuggingFace tokenizer is opaque; one overflow window of its output is
a `RawWindow`: per token, an id, a type id, an attention bit, the
sequence id (`none` for special tokens, `some 0` question, `some 1`
passage — `sequence_ids(i)`) and the originating word index
(`word_ids(i)`, `none` for special/padding tokens). -/

structure RawWindow where
  input_ids : List Int
  token_type_ids : List Int
  attention_mask : List Int
  sequence_ids : List (Option Nat)
  word_ids : List (Option Nat)
deriving DecidableEq, Repr

/-- The `while` loop of `prepare_input_features`: first token position
whose sequence id is `1` (the passage segment), or the sequence length
when there is none. -/
def tokenStartIndex (seqIds : List (Option Nat)) : Nat :=
  match seqIds.findIdx? (· == some 1) with
  | some i => i
  | none => seqIds.length

/-- The per-window `sentences_ids` construction: `token_start_index`
leading `NONE`s, then for every remaining token the sentence id of its
originating word (when the word index is present and in range) else
`NONE`. -/
def windowSentenceIds (seqIds wordIds : List (Option Nat)) (wlsi : List Int) : List Int :=
  let tsi := tokenStartIndex seqIds
  List.replicate tsi NONE ++
    (wordIds.drop tsi).map (fun w =>
      match w with
      | some wi => if wi < wlsi.length then wlsi.getD wi 0 else NONE
      | none => NONE)

/-- The four per-window fields kept by `prepare_input_features` after the
final truncation `seq[:max_seq_length]`. -/
structure Features where
  input_ids : List Int
  token_type_ids : List Int
  attention_mask : List Int
  sentence_ids : List Int
deriving DecidableEq, Repr

/-- `prepare_input_features` restricted to one window: build the sentence
ids, then truncate every field to at most `L` entries. -/
def prepare_input_features (w : RawWindow) (wlsi : List Int) (L : Nat) : Features :=
  { input_ids := w.input_ids.take L
    token_type_ids := w.token_type_ids.take L
    attention_mask := w.attention_mask.take L
    sentence_ids := (windowSentenceIds w.sequence_ids w.word_ids wlsi).take L }

/-! ## Sentence aggregator (`_get_agg_output`) -/

/-- Componentwise sum of vectors of dimension `d` (`torch` sum over the
token axis). -/
def vecSum (d : Nat) (vs : List (List ℚ)) : List ℚ :=
  vs.foldl (List.zipWith (· + ·)) (List.replicate d 0)

/-- `mean(dim=-2)`: arithmetic mean of the selected token vectors. -/
def meanPool (d : Nat) (vs : List (List ℚ)) : List ℚ :=
  (vecSum d vs).map (· / (vs.length : ℚ))

/-- One iteration of the window loop of `_get_agg_output`:
given the batch-wide `max_sentences` and the hidden size `d`, aggregate
one window's token vectors into sentence rows; returns the row matrix,
the window offset and `n_sent`.  The all-`NONE` branch builds
`torch.zeros((max_sentences, d))`, which raises when `max_sentences`
is negative — modelled as `none`. -/
def aggWindow (maxSentences : Int) (d : Nat) (ids : List Int) (seqOut : List (List ℚ)) :
    Option (List (List ℚ) × Int × Nat) :=
  let masked := ids.filter (· ≠ NONE)
  match masked.min? with
  | none =>
    if maxSentences < 0 then none
    else some (List.replicate maxSentences.toNat (List.replicate d 0), 0, 0)
  | some offset =>
    let localIds := ids.map (fun x => if x = NONE then x else x - offset)
    let nSent := (((localIds.filter (· ≠ NONE)).max?.getD 0) + 1).toNat
    let rows := (List.range nSent).map (fun j =>
      let sel := ((localIds.zip seqOut).filter (fun p => p.1 == (j : Int) && p.1 != NONE)).map (·.2)
      if sel.isEmpty then List.replicate d 0 else meanPool d sel)
    let rowsPadded :=
      if 0 < maxSentences - (nSent : Int) then
        rows ++ List.replicate (maxSentences - (nSent : Int)).toNat (List.replicate d 0)
      else rows
    some (rowsPadded, offset, nSent)

/-- The window loop of `_get_agg_output` over the zipped batch. -/
def aggWindows (maxSentences : Int) (d : Nat) :
    List (List Int × List (List ℚ)) → Option (List (List (List ℚ)) × List Int × List Nat)
  | [] => some ([], [], [])
  | (ids, so) :: rest => do
    let (row, off, ns) ← aggWindow maxSentences d ids so
    let (rows, offs, nss) ← aggWindows maxSentences d rest
    some (row :: rows, off :: offs, ns :: nss)

/-- `_get_agg_output`: `max_sentences = torch.max(ids) + 1` over the whole
batch (`torch.max` of an empty tensor raises — `none`), then the window
loop.  `d` is `seq_out.size(-1)`, the encoder hidden size. -/
def get_agg_output (idss : List (List Int)) (seqOuts : List (List (List ℚ))) (d : Nat) :
    Option (List (List (List ℚ)) × List Int × List Nat) :=
  match (idss.flatten).max? with
  | none => none
  | some m => aggWindows (m + 1) d (idss.zip seqOuts)

/-! ## Relevance selector (`_get_preds`) -/

/-- The selection threshold `θ = 0.5` of `_get_preds`, written as the
literal normalized rational `1/2` (Batteries marks `Rat` arithmetic
`@[irreducible]`, so `1 / 2` would not kernel-reduce; the literal does). -/
def threshold : ℚ := ⟨1, 2, by decide, Nat.coprime_one_left 2⟩

/-- The backoff floor `alpha = 0.05` of `_get_preds`, written as the
literal normalized rational `1/20`. -/
def alpha : ℚ := ⟨1, 20, by decide, Nat.coprime_one_left 20⟩

/-- `torch.argmax`: first index attaining the maximum. -/
def argmaxIdx (l : List ℚ) : Nat :=
  match l.max? with
  | none => 0
  | some m => (l.findIdx? (fun x => decide (x = m))).getD 0

/-- Indices of the `1` entries of `hits` (`torch.where(hits == 1)[0]`). -/
def trueIndices (bs : List Bool) : List Nat :=
  (List.range bs.length).filter (fun i => bs.getD i false)

/-- `hits = (rel_probs >= threshold).int()`. -/
def relHits (rel : List ℚ) : List Bool :=
  rel.map (fun x => decide (threshold ≤ x))

/-- The backoff step of `_get_preds`: when nothing was hit and the
maximum probability reaches the floor, force-set the argmax position. -/
def backoffHits (rel : List ℚ) : List Bool :=
  match rel.max? with
  | some m =>
    if (relHits rel).count true = 0 ∧ alpha ≤ m then (relHits rel).set (argmaxIdx rel) true
    else relHits rel
  | none => relHits rel

/-- One iteration of `_get_preds`: empty when `n_sent = 0`; otherwise
threshold the first `ns` probabilities (`rel_probs = p[:ns]`), apply the
backoff, and rebase the hit positions by `off`
(`torch.where(hits == 1)[0] + off`). -/
def getPredsWindow (p : List ℚ) (off : Int) (ns : Nat) : List Int :=
  if ns = 0 then []
  else (trueIndices (backoffHits (p.take ns))).map (fun i : Nat => (i : Int) + off)

/-- `_get_preds` over the zipped batch. -/
def get_preds : List (List ℚ) → List Int → List Nat → List (List Int)
  | p :: ps, off :: offs, ns :: nss => getPredsWindow p off ns :: get_preds ps offs nss
  | _, _, _ => []

/-! ## Model forward (`BertTaggerForSentenceExtractionWithBackoff.forward`)

`bert` plus dropout is the opaque `enc` (per window, one vector per
token); the classifier head followed by the softmax's class-1 column is
the opaque `cls` (one probability per sentence row). -/

/-- `forward`: aggregate, score every aggregated row, select. -/
def modelForward (cls : List ℚ → ℚ) (d : Nat)
    (seqOuts : List (List (List ℚ))) (sentIds : List (List Int)) :
    Option (List (List Int)) :=
  match get_agg_output sentIds seqOuts d with
  | none => none
  | some (agg, offs, nss) => some (get_preds (agg.map (fun rows => rows.map cls)) offs nss)

/-! ## Result resolution and the single-document pipeline (`_process_single`) -/

/-- A returned highlight (`{"start": ..., "end": ...}`; `end` is a Lean
keyword, the field is named `stop`). -/
structure Highlight where
  start : Nat
  stop : Nat
deriving DecidableEq, Repr

/-- The result loop of `_process_single`: each predicted index with
`0 ≤ pred_idx < len(doc_sents)` contributes `sentence_positions[pred_idx]`;
any other index contributes nothing. -/
def resolveHighlights (positions : List (Nat × Nat)) (numSents : Nat) (preds : List Int) :
    List Highlight :=
  preds.filterMap (fun idx =>
    if 0 ≤ idx ∧ idx < (numSents : Int) then
      some ⟨(positions.getD idx.toNat (0, 0)).1, (positions.getD idx.toNat (0, 0)).2⟩
    else none)

/-- `_process_single question ctx` with the segmenter output `sents`
(`nltk.sent_tokenize(context)`), the tokenizer `tok`, the encoder `enc`
and the classifier `cls` as opaque parameters.  After building features
for every overflow window, the handler collates the single feature
`example_dataset[0]` (indexing an empty dataset raises — `none`) and
reads `sentence_preds[0]`, so only the first window is scored. -/
def process_single (tok : List Char → List (List Char) → List RawWindow)
    (enc : Features → List (List ℚ)) (cls : List ℚ → ℚ) (d : Nat)
    (question ctx : List Char) (sents : List (List Char)) : Option (List Highlight) :=
  if sents.isEmpty then some []
  else
    (((tok question (wordsOf sents)).map
        (fun w => prepare_input_features w (wordSentenceIds sents) 510)).head?).bind
      (fun f0 => (modelForward cls d [enc f0] [f0.sentence_ids]).map
        (fun predss =>
          resolveHighlights (sentencePositions ctx sents) sents.length (predss.getD 0 [])))

/-- Modelled from the spec (§4.5 step 3, §4.6): the same pipeline but
scoring *every* overflow window and taking the union of the selected
global indices across windows, de-duplicated by sentence index, before
span resolution.  This is the behaviour the spec describes; it exists
only to be compared with `process_single`. -/
def process_single_union (tok : List Char → List (List Char) → List RawWindow)
    (enc : Features → List (List ℚ)) (cls : List ℚ → ℚ) (d : Nat)
    (question ctx : List Char) (sents : List (List Char)) : Option (List Highlight) :=
  if sents.isEmpty then some []
  else if ((tok question (wordsOf sents)).map
      (fun w => prepare_input_features w (wordSentenceIds sents) 510)).isEmpty then none
  else
    (modelForward cls d
        (((tok question (wordsOf sents)).map
          (fun w => prepare_input_features w (wordSentenceIds sents) 510)).map enc)
        (((tok question (wordsOf sents)).map
          (fun w => prepare_input_features w (wordSentenceIds sents) 510)).map
          (·.sentence_ids))).map
      (fun predss =>
        resolveHighlights (sentencePositions ctx sents) sents.length
          (predss.flatten).dedup)

/-! ## Auxiliary predicates used by the theorem statements -/

/-- A property of the value of a possibly-raising computation: holds
whenever the computation returns. -/
def OptionAll (p : α → Prop) : Option α → Prop
  | none => True
  | some a => p a

/-- The in-range sentence indices kept by the result loop, in prediction
order. -/
def keptIndices (numSents : Nat) (preds : List Int) : List Nat :=
  preds.filterMap (fun idx =>
    if 0 ≤ idx ∧ idx < (numSents : Int) then some idx.toNat else none)

/-- The list `sents` consists of ordered, non-overlapping substrings of
`ctx`, the first starting at or after position `cur`.  This is the
contract of the external NLTK Punkt segmenter, whose `sent_tokenize`
returns consecutive slices of its input. -/
inductive SlicesFrom (ctx : List Char) : Nat → List (List Char) → Prop
  | nil : ∀ cur, SlicesFrom ctx cur []
  | cons : ∀ {cur : Nat} (a : Nat) {s : List Char} {rest : List (List Char)},
      cur ≤ a → a + s.length ≤ ctx.length → (ctx.drop a).take s.length = s →
      SlicesFrom ctx (a + s.length) rest → SlicesFrom ctx cur (s :: rest)

/-! ## Concrete example inputs (used by the counterexamples and witnesses)

A passage of two sentences, a stub tokenizer producing two overflow
windows (one passage token per window, so the mean-pool is over a
singleton), a stub encoder keyed on the window's sentence-id field, and a
stub classifier head giving relevance 1 to both pooled sentence vectors. -/

/-- Example passage "A cat. A dog.". -/
def ctx0 : List Char := "A cat. A dog.".data

/-- Its segmentation into two sentences. -/
def sents0 : List (List Char) := ["A cat.".data, "A dog.".data]

/-- First overflow window: question token, word 1 ("cat.", sentence 0),
final special token. -/
def raw0 : RawWindow :=
  ⟨[101, 11, 102], [0, 1, 1], [1, 1, 1],
    [some 0, some 1, none], [none, some 1, none]⟩

/-- Second overflow window: question token, word 3 ("dog.", sentence 1),
final special token. -/
def raw1 : RawWindow :=
  ⟨[101, 12, 102], [0, 1, 1], [1, 1, 1],
    [some 0, some 1, none], [none, some 3, none]⟩

/-- Stub tokenizer: the passage overflows into the two windows above. -/
def tok0 : List Char → List (List Char) → List RawWindow := fun _ _ => [raw0, raw1]

/-- Stub encoder (hidden size 1): the passage token of window 0 encodes
to `[5]`, that of window 1 to `[7]`. -/
def enc0 : Features → List (List ℚ) := fun f =>
  if f.sentence_ids = [NONE, 0, NONE] then [[0], [5], [0]] else [[0], [7], [0]]

/-- Stub classifier head: relevance 1 for the pooled vectors `[5]` and
`[7]`, otherwise 0. -/
def cls0 : List ℚ → ℚ := fun v => if v = [5] then 1 else if v = [7] then 1 else 0

/-! ## Sanity: the threshold literals are the intended rationals -/

theorem threshold_eq_half : threshold = 1 / 2 := by
  rw [threshold]
  norm_num [Rat.mk'_eq_divInt, Rat.divInt_eq_div]

theorem alpha_eq_one_twentieth : alpha = 1 / 20 := by
  rw [alpha]
  norm_num [Rat.mk'_eq_divInt, Rat.divInt_eq_div]

/-! ## C7: empty segmentation yields an empty highlight list -/

/-- C7: for every tokenizer, encoder, classifier and question, when the
passage segments to zero sentences (as the empty passage does under the
NLTK segmenter), `_process_single` returns the empty highlight list and
does not raise. -/
theorem process_single_empty_sents (tok : List Char → List (List Char) → List RawWindow)
    (enc : Features → List (List ℚ)) (cls : List ℚ → ℚ) (d : Nat) (question ctx : List Char) :
    process_single tok enc cls d question ctx [] = some [] := by
  simp [process_single]

/-! ## C5: the all-`NONE` window in the aggregator -/

/-- C5 (code bug): in the only batch shape `_process_single` ever builds —
a single window — an all-`NONE` sentence-id field makes
`max_sentences = torch.max(ids) + 1 = -99`, and the aggregator's
all-`NONE` branch then raises on `torch.zeros((max_sentences, d))`
(first conjunct: the embedded aggregator returns `none`) instead of
emitting sentence count 0, offset 0 and a zero padding block.  The
remaining conjuncts record the parts of the claim the code does satisfy:
the selector emits no prediction when `n_sent = 0`, and in a batch whose
global maximum sentence id is non-negative the all-`NONE` window does
aggregate to a zero block with offset 0 and count 0. -/
theorem aggregator_all_none_window_raises :
    get_agg_output [[NONE, NONE, NONE]] [[[0], [0], [0]]] 1 = none
    ∧ (∀ (p : List ℚ) (off : Int), getPredsWindow p off 0 = [])
    ∧ aggWindow 2 1 [NONE, NONE, NONE] [[0], [0], [0]] = some ([[0], [0]], 0, 0) :=
  ⟨rfl, fun _ _ => rfl, rfl⟩

/-! ## C8: out-of-range predictions are dropped, in-range ones resolved -/

/-- C8: the result loop of `_process_single` silently drops any predicted
sentence index outside `[0, numSents)` (removing such an index from the
prediction list leaves the output unchanged) and every in-range index
contributes exactly the precomputed span of that sentence. -/
theorem resolver_drops_out_of_range (positions : List (Nat × Nat)) (numSents : Nat)
    (before after rest : List Int) (bad good : Int)
    (hbad : ¬(0 ≤ bad ∧ bad < (numSents : Int)))
    (hgood : 0 ≤ good ∧ good < (numSents : Int)) :
    resolveHighlights positions numSents (before ++ bad :: after) =
      resolveHighlights positions numSents (before ++ after)
    ∧ resolveHighlights positions numSents (good :: rest) =
      ⟨(positions.getD good.toNat (0, 0)).1, (positions.getD good.toNat (0, 0)).2⟩ ::
        resolveHighlights positions numSents rest := by
  constructor
  · simp [resolveHighlights, hbad]
  · simp [resolveHighlights, hgood]

/-- Witness for C8 at a concrete input: index 5 is out of range for two
sentences and is dropped; index 1 resolves to the second span. -/
theorem resolver_drops_out_of_range_witness :
    (¬((0:Int) ≤ 5 ∧ (5:Int) < ((2:Nat) : Int)))
    ∧ ((0:Int) ≤ 1 ∧ (1:Int) < ((2:Nat) : Int))
    ∧ (resolveHighlights [(0, 6), (7, 13)] 2 ([0] ++ 5 :: []) =
        resolveHighlights [(0, 6), (7, 13)] 2 ([0] ++ [])
      ∧ resolveHighlights [(0, 6), (7, 13)] 2 (1 :: []) =
        ⟨(([(0, 6), (7, 13)].getD (1:Int).toNat (0, 0)).1),
          (([(0, 6), (7, 13)].getD (1:Int).toNat (0, 0)).2)⟩ ::
          resolveHighlights [(0, 6), (7, 13)] 2 []) :=
  ⟨by decide, by decide,
    resolver_drops_out_of_range [(0, 6), (7, 13)] 2 [0] [] [] 5 1 (by decide) (by decide)⟩

/-! ## C2: the threshold-with-backoff selection rule -/

theorem mem_trueIndices {bs : List Bool} {i : Nat} :
    i ∈ trueIndices bs ↔ i < bs.length ∧ bs.getD i false = true := by
  rw [trueIndices, List.mem_filter, List.mem_range]

theorem filter_range_eq_singleton {f : Nat → Bool} {n j : Nat} (hj : j < n)
    (h : ∀ i, i < n → (f i = true ↔ i = j)) : (List.range n).filter f = [j] := by
  induction n with
  | zero => omega
  | succ n ih =>
    rw [List.range_succ, List.filter_append]
    rcases Nat.lt_or_ge j n with hjn | hjn
    · rw [ih hjn (fun i hi => h i (Nat.lt_succ_of_lt hi))]
      have hfn : f n = false := by
        rcases Bool.eq_false_or_eq_true (f n) with hf | hf
        · exact absurd ((h n (Nat.lt_succ_self n)).mp hf) (by omega)
        · exact hf
      simp [hfn]
    · have hj' : j = n := by omega
      subst hj'
      have hfj : f j = true := (h j (Nat.lt_succ_self j)).mpr rfl
      have hrest : (List.range j).filter f = [] := by
        rw [List.filter_eq_nil_iff]
        intro a ha hfa
        have ha' : a < j := List.mem_range.mp ha
        exact absurd ((h a (Nat.lt_succ_of_lt ha')).mp hfa) (by omega)
      simp [hrest, hfj]

theorem trueIndices_replicate_set {n j : Nat} (hj : j < n) :
    trueIndices ((List.replicate n false).set j true) = [j] := by
  have hlen : ((List.replicate n false).set j true).length = n := by simp
  rw [trueIndices, hlen]
  apply filter_range_eq_singleton hj
  intro i hi
  rcases eq_or_ne i j with rfl | hij
  · have hil : i < (List.replicate n false).length := by simpa using hi
    rw [List.getD_eq_getElem?_getD, List.getElem?_set_self hil]
    simp
  · have hrep : (List.replicate n false)[i]? = some false := by
      rw [List.getElem?_replicate]
      simp [hi]
    rw [List.getD_eq_getElem?_getD, List.getElem?_set_ne (Ne.symm hij), hrep]
    simp [hij]

theorem trueIndices_replicate_false {n : Nat} :
    trueIndices (List.replicate n false) = [] := by
  rw [trueIndices, List.filter_eq_nil_iff]
  intro a _
  rw [List.getD_eq_getElem?_getD, List.getElem?_replicate]
  by_cases h : a < n <;> simp [h]

theorem argmaxIdx_spec {l : List ℚ} {m : ℚ} (h : l.max? = some m) :
    ∃ hlt : argmaxIdx l < l.length, l[argmaxIdx l] = m := by
  have hmem : m ∈ l := List.max?_mem max_choice h
  have hex : ∃ x, x ∈ l ∧ decide (x = m) = true := ⟨m, hmem, by simp⟩
  have hf := List.findIdx?_eq_some_of_exists hex
  obtain ⟨hlt, hp, -⟩ := List.findIdx?_eq_some_iff_getElem.mp hf
  have hval : argmaxIdx l = l.findIdx (fun x => decide (x = m)) := by
    simp only [argmaxIdx, h, hf, Option.getD_some]
  rw [hval]
  exact ⟨hlt, by simpa using hp⟩

theorem backoffHits_eq {rel : List ℚ} {m : ℚ} (h : rel.max? = some m) :
    backoffHits rel =
      if (relHits rel).count true = 0 ∧ alpha ≤ m then (relHits rel).set (argmaxIdx rel) true
      else relHits rel := by
  rw [backoffHits, h]

theorem max?_spec_q {l : List ℚ} {m : ℚ} (h : l.max? = some m) :
    m ∈ l ∧ ∀ b ∈ l, b ≤ m :=
  ⟨List.max?_mem max_choice h,
    fun b hb => (List.max?_le_iff (fun _ _ _ => max_le_iff) h).mp le_rfl b hb⟩

/-- C2: per window with `n_sent = ns > 0` relevance probabilities
`p[0..ns)`: every position whose probability reaches the threshold `0.5`
is selected; when no position reaches `0.5` but the maximum probability
reaches the floor `0.05`, exactly the (first) maximum-attaining position
is selected; when every probability is below `0.05` nothing is
selected. -/
theorem selection_rule (p : List ℚ) (off : Int) (ns : Nat)
    (hns : ns ≠ 0) (hlen : ns ≤ p.length) :
    (∀ i, i < ns → threshold ≤ p.getD i 0 → ((i : Int) + off) ∈ getPredsWindow p off ns)
    ∧ ((∀ i, i < ns → p.getD i 0 < threshold) → alpha ≤ (p.take ns).max?.getD 0 →
        getPredsWindow p off ns = [((argmaxIdx (p.take ns) : Int) + off)]
        ∧ argmaxIdx (p.take ns) < ns
        ∧ (p.take ns).max? = some (p.getD (argmaxIdx (p.take ns)) 0))
    ∧ ((∀ i, i < ns → p.getD i 0 < alpha) → getPredsWindow p off ns = []) := by
  have hrellen : (p.take ns).length = ns := by
    rw [List.length_take]; omega
  have hrelne : p.take ns ≠ [] := by
    intro h
    rw [h] at hrellen
    simp at hrellen
    omega
  have hbridge : ∀ k, k < ns → (p.take ns)[k]? = some (p.getD k 0) := by
    intro k hk
    have hk' : k < p.length := lt_of_lt_of_le hk hlen
    rw [List.getElem?_take_of_lt hk, List.getElem?_eq_getElem hk',
      List.getD_eq_getElem?_getD, List.getElem?_eq_getElem hk']
    rfl
  have hsome : ∃ m, (p.take ns).max? = some m := by
    cases h : (p.take ns).max? with
    | none => exact absurd (List.max?_eq_none_iff.mp h) hrelne
    | some m => exact ⟨m, rfl⟩
  have hhitlen : (relHits (p.take ns)).length = ns := by
    rw [relHits, List.length_map, hrellen]
  have hhits_all : (∀ i, i < ns → p.getD i 0 < threshold) →
      relHits (p.take ns) = List.replicate ns false := by
    intro hall
    rw [List.eq_replicate_iff]
    refine ⟨hhitlen, ?_⟩
    intro b hb
    rw [relHits, List.mem_map] at hb
    obtain ⟨x, hx, rfl⟩ := hb
    rw [List.mem_iff_getElem] at hx
    obtain ⟨k, hk, rfl⟩ := hx
    have hk' : k < ns := by rw [hrellen] at hk; exact hk
    have hval : (p.take ns)[k] = p.getD k 0 := by
      have := hbridge k hk'
      rw [List.getElem?_eq_getElem hk] at this
      exact Option.some.inj this
    rw [hval]
    exact decide_eq_false (not_le.mpr (hall k hk'))
  refine ⟨?_, ?_, ?_⟩
  · -- every position over the threshold is selected
    intro i hi hthr
    have hi' : i < (relHits (p.take ns)).length := by omega
    have hhit : (relHits (p.take ns)).getD i false = true := by
      rw [List.getD_eq_getElem?_getD, relHits, List.getElem?_map, hbridge i hi]
      simpa using hthr
    obtain ⟨m, hmax⟩ := hsome
    have hback : (backoffHits (p.take ns)).getD i false = true := by
      rw [backoffHits_eq hmax]
      by_cases hc : (relHits (p.take ns)).count true = 0 ∧ alpha ≤ m
      · rw [if_pos hc]
        rcases eq_or_ne (argmaxIdx (p.take ns)) i with he | hne
        · have hil : i < (relHits (p.take ns)).length := by omega
          rw [he, List.getD_eq_getElem?_getD, List.getElem?_set_self hil]
          rfl
        · rw [List.getD_eq_getElem?_getD, List.getElem?_set_ne hne,
            ← List.getD_eq_getElem?_getD]
          exact hhit
      · rw [if_neg hc]
        exact hhit
    have hblen : (backoffHits (p.take ns)).length = ns := by
      rw [backoffHits_eq hmax]
      by_cases hc : (relHits (p.take ns)).count true = 0 ∧ alpha ≤ m
      · rw [if_pos hc, List.length_set]
        exact hhitlen
      · rw [if_neg hc]
        exact hhitlen
    have hmem : i ∈ trueIndices (backoffHits (p.take ns)) :=
      mem_trueIndices.mpr ⟨by omega, hback⟩
    rw [getPredsWindow, if_neg hns]
    exact List.mem_map_of_mem (fun k : Nat => (k : Int) + off) hmem
  · -- the backoff branch selects exactly the argmax
    intro hall hfloor
    obtain ⟨m, hmax⟩ := hsome
    have halpha : alpha ≤ m := by rw [hmax] at hfloor; simpa using hfloor
    have hhits := hhits_all hall
    have hcount : (relHits (p.take ns)).count true = 0 := by
      simp [hhits, List.count_replicate]
    obtain ⟨hargl, hargval⟩ := argmaxIdx_spec hmax
    have harg_ns : argmaxIdx (p.take ns) < ns := by rw [hrellen] at hargl; exact hargl
    have hbeq : backoffHits (p.take ns) =
        (List.replicate ns false).set (argmaxIdx (p.take ns)) true := by
      rw [backoffHits_eq hmax, if_pos ⟨hcount, halpha⟩, hhits]
    have hargd : (p.take ns)[argmaxIdx (p.take ns)] = p.getD (argmaxIdx (p.take ns)) 0 := by
      have := hbridge _ harg_ns
      rw [List.getElem?_eq_getElem hargl] at this
      exact Option.some.inj this
    refine ⟨?_, harg_ns, ?_⟩
    · rw [getPredsWindow, if_neg hns, hbeq, trueIndices_replicate_set harg_ns]
      rfl
    · rw [hmax, ← hargval, hargd]
  · -- everything below the floor selects nothing
    intro hall
    obtain ⟨m, hmax⟩ := hsome
    have hm_lt : m < alpha := by
      obtain ⟨hmem, -⟩ := max?_spec_q hmax
      rw [List.mem_iff_getElem] at hmem
      obtain ⟨k, hk, hkm⟩ := hmem
      have hk' : k < ns := by rw [hrellen] at hk; exact hk
      have hval : (p.take ns)[k] = p.getD k 0 := by
        have := hbridge k hk'
        rw [List.getElem?_eq_getElem hk] at this
        exact Option.some.inj this
      rw [← hkm, hval]
      exact hall k hk'
    have hat : alpha ≤ threshold := by decide
    have hhits := hhits_all (fun i hi => lt_of_lt_of_le (lt_of_lt_of_le (hall i hi) hat) le_rfl)
    have hbeq : backoffHits (p.take ns) = relHits (p.take ns) := by
      rw [backoffHits_eq hmax, if_neg]
      rintro ⟨-, hle⟩
      exact absurd hle (not_le.mpr hm_lt)
    rw [getPredsWindow, if_neg hns, hbeq, hhits, trueIndices_replicate_false]
    rfl

/-- Witness for C2 at `p = [1, 0]`, `off = 3`, `ns = 2`. -/
theorem selection_rule_witness :
    ((2 : Nat) ≠ 0 ∧ 2 ≤ ([(1 : ℚ), 0]).length)
    ∧ ((∀ i, i < 2 → threshold ≤ ([(1 : ℚ), 0]).getD i 0 →
          ((i : Int) + 3) ∈ getPredsWindow [(1 : ℚ), 0] 3 2)
      ∧ ((∀ i, i < 2 → ([(1 : ℚ), 0]).getD i 0 < threshold) →
          alpha ≤ (([(1 : ℚ), 0]).take 2).max?.getD 0 →
          getPredsWindow [(1 : ℚ), 0] 3 2 =
            [((argmaxIdx (([(1 : ℚ), 0]).take 2) : Int) + 3)]
          ∧ argmaxIdx (([(1 : ℚ), 0]).take 2) < 2
          ∧ (([(1 : ℚ), 0]).take 2).max? =
            some (([(1 : ℚ), 0]).getD (argmaxIdx (([(1 : ℚ), 0]).take 2)) 0))
      ∧ ((∀ i, i < 2 → ([(1 : ℚ), 0]).getD i 0 < alpha) →
          getPredsWindow [(1 : ℚ), 0] 3 2 = [])) :=
  ⟨⟨by decide, by decide⟩, selection_rule [(1 : ℚ), 0] 3 2 (by decide) (by decide)⟩

/-! ## C6: sentence-id propagation in the feature builder -/

theorem tokenStartIndex_le {seqIds : List (Option Nat)} {i : Nat}
    (h : seqIds.getD i none = some 1) : tokenStartIndex seqIds ≤ i := by
  rw [List.getD_eq_getElem?_getD] at h
  cases hq : seqIds[i]? with
  | none => rw [hq] at h; exact absurd h (by simp)
  | some v =>
    rw [hq, Option.getD_some] at h
    subst h
    obtain ⟨hil, hie⟩ := List.getElem?_eq_some.mp hq
    rw [tokenStartIndex]
    cases hf : seqIds.findIdx? (· == some 1) with
    | none =>
      have := List.findIdx?_eq_none_iff.mp hf _ (List.getElem_mem hil)
      rw [hie] at this
      simp at this
    | some jj =>
      obtain ⟨hjl, -, hmin⟩ := List.findIdx?_eq_some_iff_getElem.mp hf
      by_contra hlt
      push_neg at hlt
      have := hmin i hlt
      rw [hie] at this
      simp at this

/-- C6: per window, `prepare_input_features` assigns: `NONE` to every
token strictly before the first passage-segment position; the owning
word's sentence id to every later token generated from a word with an
in-range word index (passage-segment tokens in particular, since a
position whose sequence id is `1` lies at or after the first such
position); `NONE` to every later token with no underlying word; and it
truncates all four per-window fields to at most `L` entries. -/
theorem feature_builder_spec (w : RawWindow) (wlsi : List Int) (L : Nat)
    (i j k wi : Nat)
    (hi : i < tokenStartIndex w.sequence_ids)
    (hj1 : w.sequence_ids.getD j none = some 1)
    (hjw : w.word_ids.getD j none = some wi)
    (hwi : wi < wlsi.length)
    (hk : tokenStartIndex w.sequence_ids ≤ k)
    (hknone : w.word_ids.getD k none = none) :
    (windowSentenceIds w.sequence_ids w.word_ids wlsi).getD i NONE = NONE
    ∧ (windowSentenceIds w.sequence_ids w.word_ids wlsi).getD j NONE = wlsi.getD wi 0
    ∧ (windowSentenceIds w.sequence_ids w.word_ids wlsi).getD k NONE = NONE
    ∧ (prepare_input_features w wlsi L).input_ids.length ≤ L
    ∧ (prepare_input_features w wlsi L).token_type_ids.length ≤ L
    ∧ (prepare_input_features w wlsi L).attention_mask.length ≤ L
    ∧ (prepare_input_features w wlsi L).sentence_ids.length ≤ L := by
  have hj : tokenStartIndex w.sequence_ids ≤ j := tokenStartIndex_le hj1
  refine ⟨?_, ?_, ?_, ?_, ?_, ?_, ?_⟩
  · -- before the passage segment: NONE
    rw [windowSentenceIds, List.getD_append _ _ _ _ (by simpa using hi)]
    simp [List.getD_eq_getElem?_getD, List.getElem?_replicate, hi]
  · -- a word-generated token carries its word's sentence id
    rw [windowSentenceIds,
      List.getD_append_right _ _ _ _ (by simpa using hj), List.length_replicate,
      List.getD_eq_getElem?_getD, List.getElem?_map, List.getElem?_drop]
    have hjj : tokenStartIndex w.sequence_ids + (j - tokenStartIndex w.sequence_ids) = j := by
      omega
    rw [hjj]
    have hjq : w.word_ids[j]? = some (some wi) := by
      rw [List.getD_eq_getElem?_getD] at hjw
      cases hq : w.word_ids[j]? with
      | none => rw [hq] at hjw; exact absurd hjw (by simp)
      | some v => rw [hq, Option.getD_some] at hjw; rw [hjw]
    rw [hjq]
    simp [hwi]
  · -- a token with no underlying word: NONE
    rw [windowSentenceIds,
      List.getD_append_right _ _ _ _ (by simpa using hk), List.length_replicate,
      List.getD_eq_getElem?_getD, List.getElem?_map, List.getElem?_drop]
    have hkk : tokenStartIndex w.sequence_ids + (k - tokenStartIndex w.sequence_ids) = k := by
      omega
    rw [hkk]
    rw [List.getD_eq_getElem?_getD] at hknone
    cases hq : w.word_ids[k]? with
    | none => simp [hq]
    | some v =>
      rw [hq, Option.getD_some] at hknone
      subst hknone
      simp [hq]
  · exact le_trans (List.length_take_le _ _) le_rfl
  · exact le_trans (List.length_take_le _ _) le_rfl
  · exact le_trans (List.length_take_le _ _) le_rfl
  · exact le_trans (List.length_take_le _ _) le_rfl

/-- Witness for C6 on a concrete five-token window:
`sequence_ids = [none, some 0, some 1, some 1, none]`,
`word_ids = [none, some 0, some 0, some 5, none]`,
one passage word sentence id `[7]`, truncation length 3. -/
theorem feature_builder_spec_witness :
    ((1 : Nat) < tokenStartIndex [none, some 0, some 1, some 1, none]
      ∧ ([none, some 0, some 1, some 1, none] : List (Option Nat)).getD 2 none = some 1
      ∧ ([none, some 0, some 0, some 5, none] : List (Option Nat)).getD 2 none = some 0
      ∧ (0 : Nat) < ([(7 : Int)]).length
      ∧ tokenStartIndex [none, some 0, some 1, some 1, none] ≤ 4
      ∧ ([none, some 0, some 0, some 5, none] : List (Option Nat)).getD 4 none = none)
    ∧ ((windowSentenceIds [none, some 0, some 1, some 1, none]
          [none, some 0, some 0, some 5, none] [(7 : Int)]).getD 1 NONE = NONE
      ∧ (windowSentenceIds [none, some 0, some 1, some 1, none]
          [none, some 0, some 0, some 5, none] [(7 : Int)]).getD 2 NONE =
            ([(7 : Int)]).getD 0 0
      ∧ (windowSentenceIds [none, some 0, some 1, some 1, none]
          [none, some 0, some 0, some 5, none] [(7 : Int)]).getD 4 NONE = NONE
      ∧ (prepare_input_features
          ⟨[9, 9, 9, 9, 9], [0, 0, 1, 1, 1], [1, 1, 1, 1, 1],
            [none, some 0, some 1, some 1, none],
            [none, some 0, some 0, some 5, none]⟩ [(7 : Int)] 3).input_ids.length ≤ 3
      ∧ (prepare_input_features
          ⟨[9, 9, 9, 9, 9], [0, 0, 1, 1, 1], [1, 1, 1, 1, 1],
            [none, some 0, some 1, some 1, none],
            [none, some 0, some 0, some 5, none]⟩ [(7 : Int)] 3).token_type_ids.length ≤ 3
      ∧ (prepare_input_features
          ⟨[9, 9, 9, 9, 9], [0, 0, 1, 1, 1], [1, 1, 1, 1, 1],
            [none, some 0, some 1, some 1, none],
            [none, some 0, some 0, some 5, none]⟩ [(7 : Int)] 3).attention_mask.length ≤ 3
      ∧ (prepare_input_features
          ⟨[9, 9, 9, 9, 9], [0, 0, 1, 1, 1], [1, 1, 1, 1, 1],
            [none, some 0, some 1, some 1, none],
            [none, some 0, some 0, some 5, none]⟩ [(7 : Int)] 3).sentence_ids.length ≤ 3) :=
  ⟨⟨by decide, by decide, by decide, by decide, by decide, by decide⟩,
    feature_builder_spec
      ⟨[9, 9, 9, 9, 9], [0, 0, 1, 1, 1], [1, 1, 1, 1, 1],
        [none, some 0, some 1, some 1, none], [none, some 0, some 0, some 5, none]⟩
      [(7 : Int)] 3 1 2 4 0 (by decide) (by decide) (by decide) (by decide)
      (by decide) (by decide)⟩

/-! ## Substring search and sentence-span lemmas (C3, C4, C10) -/

theorem occursAt_iff {ctx sent : List Char} {i : Nat} :
    occursAt ctx sent i = true ↔
      i + sent.length ≤ ctx.length ∧ (ctx.drop i).take sent.length = sent := by
  simp [occursAt]

theorem findFromGo_sound {ctx sent : List Char} :
    ∀ (fuel i p : Nat), findFromGo ctx sent i fuel = some p →
      i ≤ p ∧ occursAt ctx sent p = true
  | 0, i, p => by simp [findFromGo]
  | fuel + 1, i, p => by
    rw [findFromGo]
    by_cases hc : occursAt ctx sent i = true
    · rw [if_pos hc]
      intro h
      cases h
      exact ⟨Nat.le_refl _, hc⟩
    · rw [if_neg hc]
      intro h
      obtain ⟨h1, h2⟩ := findFromGo_sound fuel (i + 1) p h
      exact ⟨by omega, h2⟩

theorem findFromGo_complete {ctx sent : List Char} :
    ∀ (fuel i a : Nat), occursAt ctx sent a = true → i ≤ a → a < i + fuel →
      ∃ p, findFromGo ctx sent i fuel = some p ∧ p ≤ a
  | 0, i, a => by omega
  | fuel + 1, i, a => by
    intro ha hia haf
    rw [findFromGo]
    by_cases hc : occursAt ctx sent i = true
    · exact ⟨i, by rw [if_pos hc], hia⟩
    · rw [if_neg hc]
      have hne : i ≠ a := fun he => hc (he ▸ ha)
      exact findFromGo_complete fuel (i + 1) a ha (by omega) (by omega)

theorem findFrom_sound {ctx sent : List Char} {start p : Nat}
    (h : findFrom ctx sent start = some p) :
    start ≤ p ∧ p + sent.length ≤ ctx.length ∧ slice ctx p (p + sent.length) = sent := by
  rw [findFrom] at h
  by_cases hs : start ≤ ctx.length
  · rw [if_pos hs] at h
    obtain ⟨h1, h2⟩ := findFromGo_sound _ _ _ h
    rw [occursAt_iff] at h2
    refine ⟨h1, h2.1, ?_⟩
    rw [slice, Nat.add_sub_cancel_left]
    exact h2.2
  · rw [if_neg hs] at h
    exact absurd h (by simp)

theorem findFrom_complete {ctx sent : List Char} {start a : Nat}
    (ha : occursAt ctx sent a = true) (hsa : start ≤ a) :
    ∃ p, findFrom ctx sent start = some p ∧ p ≤ a := by
  have halen : a ≤ ctx.length := by
    have := (occursAt_iff.mp ha).1
    omega
  rw [findFrom, if_pos (le_trans hsa halen)]
  exact findFromGo_complete _ _ _ ha hsa (by omega)

theorem SlicesFrom.mono {ctx : List Char} {sents : List (List Char)} {c c' : Nat}
    (hcc : c ≤ c') (h : SlicesFrom ctx c' sents) : SlicesFrom ctx c sents := by
  cases h with
  | nil => exact SlicesFrom.nil c
  | cons a h1 h2 h3 h4 => exact SlicesFrom.cons a (le_trans hcc h1) h2 h3 h4

theorem sentencePositionsFrom_len {ctx : List Char} :
    ∀ (sents : List (List Char)) (cur : Nat),
      List.Forall₂ (fun (pos : Nat × Nat) (s : List Char) => pos.2 = pos.1 + s.length)
        (sentencePositionsFrom ctx cur sents) sents
  | [], _ => List.Forall₂.nil
  | s :: rest, cur => by
    simp only [sentencePositionsFrom]
    exact List.Forall₂.cons rfl (sentencePositionsFrom_len rest _)

theorem sentencePositionsFrom_start_ge {ctx : List Char} :
    ∀ (sents : List (List Char)) (cur : Nat),
      ∀ pos ∈ sentencePositionsFrom ctx cur sents, cur ≤ pos.1
  | [], cur => by simp [sentencePositionsFrom]
  | s :: rest, cur => by
    intro pos hpos
    have hstart : cur ≤ (findFrom ctx s cur).getD cur := by
      cases hf : findFrom ctx s cur with
      | none => simp
      | some p => simpa using (findFrom_sound hf).1
    simp only [sentencePositionsFrom, List.mem_cons] at hpos
    rcases hpos with rfl | hpos
    · exact hstart
    · have := sentencePositionsFrom_start_ge rest _ pos hpos
      omega

theorem sentencePositionsFrom_pairwise {ctx : List Char} :
    ∀ (sents : List (List Char)) (cur : Nat),
      List.Pairwise (fun (a b : Nat × Nat) => a.2 ≤ b.1)
        (sentencePositionsFrom ctx cur sents)
  | [], _ => List.Pairwise.nil
  | s :: rest, cur => by
    simp only [sentencePositionsFrom]
    refine List.Pairwise.cons ?_ (sentencePositionsFrom_pairwise rest _)
    intro b hb
    exact sentencePositionsFrom_start_ge rest _ b hb

theorem sentencePositionsFrom_exact {ctx : List Char} :
    ∀ {sents : List (List Char)} {cur : Nat}, SlicesFrom ctx cur sents →
      List.Forall₂ (fun (pos : Nat × Nat) (s : List Char) =>
          pos.2 = pos.1 + s.length ∧ pos.2 ≤ ctx.length ∧ slice ctx pos.1 pos.2 = s)
        (sentencePositionsFrom ctx cur sents) sents
  | [], _, _ => List.Forall₂.nil
  | s :: rest, cur, h => by
    obtain ⟨a, hca, halen, hsl, hrest⟩ : ∃ a, cur ≤ a ∧ a + s.length ≤ ctx.length ∧
        (ctx.drop a).take s.length = s ∧ SlicesFrom ctx (a + s.length) rest := by
      cases h with
      | cons a h1 h2 h3 h4 => exact ⟨a, h1, h2, h3, h4⟩
    have hocc : occursAt ctx s a = true := occursAt_iff.mpr ⟨halen, hsl⟩
    obtain ⟨p, hp, hpa⟩ := findFrom_complete hocc hca
    obtain ⟨-, hplen, hpslice⟩ := findFrom_sound hp
    simp only [sentencePositionsFrom, hp, Option.getD_some]
    refine List.Forall₂.cons ⟨rfl, hplen, hpslice⟩ ?_
    exact sentencePositionsFrom_exact (SlicesFrom.mono (by omega) hrest)

/-! ## Shape of a successful `_process_single` run -/

theorem modelForward_single {cls : List ℚ → ℚ} {d : Nat} {out : List (List ℚ)}
    {ids : List Int} {predss : List (List Int)}
    (h : modelForward cls d [out] [ids] = some predss) :
    ∃ (p : List ℚ) (off : Int) (ns : Nat), predss = [getPredsWindow p off ns] := by
  rw [modelForward] at h
  cases hagg : get_agg_output [ids] [out] d with
  | none =>
    rw [hagg] at h
    exact absurd h (by simp)
  | some t =>
    obtain ⟨agg, offs, nss⟩ := t
    rw [hagg] at h
    rw [get_agg_output] at hagg
    cases hmax : ([ids].flatten).max? with
    | none =>
      rw [hmax] at hagg
      exact absurd hagg (by simp)
    | some m =>
      rw [hmax] at hagg
      have hzip : ([ids].zip [out]) = [(ids, out)] := rfl
      rw [hzip] at hagg
      simp only [aggWindows] at hagg
      cases haw : aggWindow (m + 1) d ids out with
      | none =>
        rw [haw] at hagg
        exact absurd hagg (by simp)
      | some t2 =>
        obtain ⟨row, off, ns⟩ := t2
        rw [haw] at hagg
        simp only [aggWindows, Option.bind_eq_bind, Option.some_bind,
          Option.some.injEq] at hagg
        injection hagg with h1 h23
        injection h23 with h2 h3
        subst h1
        subst h2
        subst h3
        refine ⟨row.map cls, off, ns, ?_⟩
        simp only [Option.some.injEq] at h
        rw [← h]
        rfl

theorem process_single_shape {tok : List Char → List (List Char) → List RawWindow}
    {enc : Features → List (List ℚ)} {cls : List ℚ → ℚ} {d : Nat} {q ctx : List Char}
    {sents : List (List Char)} {hs : List Highlight}
    (h : process_single tok enc cls d q ctx sents = some hs) :
    hs = [] ∨ ∃ (p : List ℚ) (off : Int) (ns : Nat),
      hs = resolveHighlights (sentencePositions ctx sents) sents.length
        (getPredsWindow p off ns) := by
  rw [process_single] at h
  by_cases hse : sents.isEmpty
  · rw [if_pos hse] at h
    exact Or.inl (by cases h; rfl)
  · rw [if_neg hse] at h
    cases hb : ((tok q (wordsOf sents)).map
        (fun w => prepare_input_features w (wordSentenceIds sents) 510)).head? with
    | none =>
      rw [hb] at h
      exact absurd h (by simp)
    | some f0 =>
      rw [hb, Option.some_bind] at h
      cases hmf : modelForward cls d [enc f0] [f0.sentence_ids] with
      | none =>
        rw [hmf] at h
        exact absurd h (by simp)
      | some predss =>
        rw [hmf, Option.map_some'] at h
        obtain ⟨p, off, ns, rfl⟩ := modelForward_single hmf
        right
        refine ⟨p, off, ns, ?_⟩
        simp only [Option.some.injEq] at h
        rw [← h]
        rfl

/-! ## Result-loop lemmas shared by C3, C4, C10 -/

theorem mem_resolveHighlights {positions : List (Nat × Nat)} {n : Nat} {preds : List Int}
    {hl : Highlight} (h : hl ∈ resolveHighlights positions n preds) :
    ∃ i, i < n ∧ hl = ⟨(positions.getD i (0, 0)).1, (positions.getD i (0, 0)).2⟩ := by
  rw [resolveHighlights, List.mem_filterMap] at h
  obtain ⟨idx, -, hidx⟩ := h
  by_cases hc : 0 ≤ idx ∧ idx < (n : Int)
  · rw [if_pos hc] at hidx
    cases hidx
    exact ⟨idx.toNat, by omega, rfl⟩
  · rw [if_neg hc] at hidx
    exact absurd hidx (by simp)

theorem resolveHighlights_eq_map {positions : List (Nat × Nat)} {n : Nat} {preds : List Int} :
    resolveHighlights positions n preds =
      (keptIndices n preds).map
        (fun i => ⟨(positions.getD i (0, 0)).1, (positions.getD i (0, 0)).2⟩) := by
  rw [resolveHighlights, keptIndices, List.map_filterMap]
  congr 1
  funext idx
  by_cases hc : 0 ≤ idx ∧ idx < (n : Int) <;> simp [hc]

theorem keptIndices_lt {n : Nat} {preds : List Int} :
    ∀ i ∈ keptIndices n preds, i < n := by
  intro i hi
  rw [keptIndices, List.mem_filterMap] at hi
  obtain ⟨idx, -, hidx⟩ := hi
  by_cases hc : 0 ≤ idx ∧ idx < (n : Int)
  · rw [if_pos hc] at hidx
    cases hidx
    omega
  · rw [if_neg hc] at hidx
    exact absurd hidx (by simp)

theorem keptIndices_sorted {n : Nat} {preds : List Int}
    (h : List.Pairwise (· < ·) preds) :
    List.Pairwise (· < ·) (keptIndices n preds) := by
  rw [keptIndices]
  refine List.Pairwise.filterMap _ ?_ h
  intro a b hab x hx y hy
  by_cases hca : 0 ≤ a ∧ a < (n : Int)
  · rw [if_pos hca, Option.mem_def, Option.some.injEq] at hx
    by_cases hcb : 0 ≤ b ∧ b < (n : Int)
    · rw [if_pos hcb, Option.mem_def, Option.some.injEq] at hy
      subst hx
      subst hy
      omega
    · rw [if_neg hcb] at hy
      exact absurd hy (by simp)
  · rw [if_neg hca] at hx
    exact absurd hx (by simp)

theorem trueIndices_sorted {bs : List Bool} : List.Pairwise (· < ·) (trueIndices bs) := by
  rw [trueIndices]
  exact List.Pairwise.sublist (List.filter_sublist _) (List.pairwise_lt_range _)

theorem getPredsWindow_sorted {p : List ℚ} {off : Int} {ns : Nat} :
    List.Pairwise (· < ·) (getPredsWindow p off ns) := by
  rw [getPredsWindow]
  by_cases h : ns = 0
  · simp [h]
  · rw [if_neg h, List.pairwise_map]
    exact trueIndices_sorted.imp (fun hab => by omega)

theorem getD_eq_getElem_of_lt {α : Type} {l : List α} {i : Nat} {dflt : α}
    (h : i < l.length) : l.getD i dflt = l[i] := by
  rw [List.getD_eq_getElem?_getD, List.getElem?_eq_getElem h]
  rfl

/-! ## C10: span length equals sentence text length -/

/-- C10: every sentence span computed by the cursor loop — the fallback
branch included — satisfies `end = start + len(text)`, and every returned
highlight's span is such a span: its length equals the length of its
sentence's segmented text. -/
theorem span_length_invariant (tok : List Char → List (List Char) → List RawWindow)
    (enc : Features → List (List ℚ)) (cls : List ℚ → ℚ) (d : Nat)
    (q ctx : List Char) (sents : List (List Char)) :
    List.Forall₂ (fun (pos : Nat × Nat) (s : List Char) => pos.2 = pos.1 + s.length)
      (sentencePositions ctx sents) sents
    ∧ OptionAll (fun hs => hs.Forall (fun hl => ∃ i, i < sents.length ∧
        (sentencePositions ctx sents).getD i (0, 0) = (hl.start, hl.stop) ∧
        hl.stop = hl.start + (sents.getD i []).length))
      (process_single tok enc cls d q ctx sents) := by
  have hf : List.Forall₂ (fun (pos : Nat × Nat) (s : List Char) => pos.2 = pos.1 + s.length)
      (sentencePositions ctx sents) sents := sentencePositionsFrom_len sents 0
  refine ⟨hf, ?_⟩
  cases hps : process_single tok enc cls d q ctx sents with
  | none => trivial
  | some hs =>
    rcases process_single_shape hps with rfl | ⟨p, off, ns, rfl⟩
    · simp [OptionAll, List.Forall]
    · show List.Forall _ _
      rw [List.forall_iff_forall_mem]
      intro hl hmem
      obtain ⟨i, hi, rfl⟩ := mem_resolveHighlights hmem
      have hleq : (sentencePositions ctx sents).length = sents.length := hf.length_eq
      rw [List.forall₂_iff_get] at hf
      have hr := hf.2 i (by omega) (by omega)
      simp only [List.get_eq_getElem] at hr
      refine ⟨i, hi, rfl, ?_⟩
      show ((sentencePositions ctx sents).getD i (0, 0)).2 =
        ((sentencePositions ctx sents).getD i (0, 0)).1 + (sents.getD i []).length
      rw [getD_eq_getElem_of_lt (by omega), getD_eq_getElem_of_lt hi]
      exact hr

/-! ## C3: span validity under the segmenter contract -/

/-- C3: assuming the segmenter contract (the sentences are ordered,
non-overlapping slices of the context — true of NLTK's Punkt
`sent_tokenize`), every returned highlight satisfies
`0 ≤ start ≤ end ≤ len(context)` and `context[start:end]` reproduces the
sentence's text (under the contract the substring search always locates
the sentence, so the claim's conditional clause holds a fortiori). -/
theorem span_validity (tok : List Char → List (List Char) → List RawWindow)
    (enc : Features → List (List ℚ)) (cls : List ℚ → ℚ) (d : Nat)
    (q ctx : List Char) (sents : List (List Char)) (hseg : SlicesFrom ctx 0 sents) :
    OptionAll (fun hs => hs.Forall (fun hl =>
        hl.start ≤ hl.stop ∧ hl.stop ≤ ctx.length ∧
        ∃ i, i < sents.length ∧ slice ctx hl.start hl.stop = sents.getD i []))
      (process_single tok enc cls d q ctx sents) := by
  cases hps : process_single tok enc cls d q ctx sents with
  | none => trivial
  | some hs =>
    rcases process_single_shape hps with rfl | ⟨p, off, ns, rfl⟩
    · simp [OptionAll, List.Forall]
    · show List.Forall _ _
      rw [List.forall_iff_forall_mem]
      intro hl hmem
      obtain ⟨i, hi, rfl⟩ := mem_resolveHighlights hmem
      have hex := sentencePositionsFrom_exact hseg
      have hleq : (sentencePositions ctx sents).length = sents.length := hex.length_eq
      rw [List.forall₂_iff_get] at hex
      have hr := hex.2 i (by omega) (by omega)
      simp only [List.get_eq_getElem] at hr
      obtain ⟨hlen2, hle2, hslice2⟩ := hr
      have hlen3 : ((sentencePositions ctx sents).get ⟨i, by omega⟩).2 =
          ((sentencePositions ctx sents).get ⟨i, by omega⟩).1 +
            (sents.get ⟨i, hi⟩).length := hlen2
      have hgd : (sentencePositions ctx sents).getD i (0, 0) =
          (sentencePositions ctx sents).get ⟨i, by omega⟩ := getD_eq_getElem_of_lt (by omega)
      refine ⟨?_, ?_, i, hi, ?_⟩
      · show ((sentencePositions ctx sents).getD i (0, 0)).1 ≤
          ((sentencePositions ctx sents).getD i (0, 0)).2
        rw [hgd]
        omega
      · show ((sentencePositions ctx sents).getD i (0, 0)).2 ≤ ctx.length
        rw [hgd]
        exact hle2
      · rw [getD_eq_getElem_of_lt hi, hgd]
        exact hslice2

/-- Witness for C3: the two-sentence example passage, whose segmentation
is a chain of exact slices, run through the stub tokenizer/encoder/
classifier. -/
theorem span_validity_witness :
    SlicesFrom ctx0 0 sents0
    ∧ OptionAll (fun hs => hs.Forall (fun hl =>
        hl.start ≤ hl.stop ∧ hl.stop ≤ ctx0.length ∧
        ∃ i, i < sents0.length ∧ slice ctx0 hl.start hl.stop = sents0.getD i []))
      (process_single tok0 enc0 cls0 1 "q".data ctx0 sents0) :=
  have hseg : SlicesFrom ctx0 0 sents0 :=
    SlicesFrom.cons 0 (by decide) (by decide) (by decide)
      (SlicesFrom.cons 7 (by decide) (by decide) (by decide)
        (SlicesFrom.nil _))
  ⟨hseg, span_validity tok0 enc0 cls0 1 "q".data ctx0 sents0 hseg⟩

/-! ## C4: ordering and non-overlap of spans and highlights -/

/-- C4: the segmentation spans are pairwise non-overlapping with each
span's start at least the previous span's end (fallback branch included),
and any returned highlight list is the image of a strictly increasing
list of in-range sentence indices, its spans pairwise non-overlapping. -/
theorem highlight_order (tok : List Char → List (List Char) → List RawWindow)
    (enc : Features → List (List ℚ)) (cls : List ℚ → ℚ) (d : Nat)
    (q ctx : List Char) (sents : List (List Char)) :
    List.Chain' (fun (a b : Nat × Nat) => a.2 ≤ b.1) (sentencePositions ctx sents)
    ∧ List.Pairwise (fun (a b : Nat × Nat) => a.2 ≤ b.1) (sentencePositions ctx sents)
    ∧ OptionAll (fun hs =>
        (∃ idxs : List Nat, List.Pairwise (· < ·) idxs ∧
          (∀ i ∈ idxs, i < sents.length) ∧
          hs = idxs.map (fun i =>
            ⟨((sentencePositions ctx sents).getD i (0, 0)).1,
              ((sentencePositions ctx sents).getD i (0, 0)).2⟩))
        ∧ List.Pairwise (fun h1 h2 => h1.stop ≤ h2.start) hs)
      (process_single tok enc cls d q ctx sents) := by
  have hpw : List.Pairwise (fun (a b : Nat × Nat) => a.2 ≤ b.1)
      (sentencePositions ctx sents) := sentencePositionsFrom_pairwise sents 0
  refine ⟨hpw.chain', hpw, ?_⟩
  cases hps : process_single tok enc cls d q ctx sents with
  | none => trivial
  | some hs =>
    have hplen : (sentencePositions ctx sents).length = sents.length :=
      (sentencePositionsFrom_len sents 0).length_eq
    rcases process_single_shape hps with rfl | ⟨p, off, ns, rfl⟩
    · exact ⟨⟨[], List.Pairwise.nil, by simp, rfl⟩, List.Pairwise.nil⟩
    · refine ⟨⟨keptIndices sents.length (getPredsWindow p off ns),
        keptIndices_sorted getPredsWindow_sorted, keptIndices_lt,
        resolveHighlights_eq_map⟩, ?_⟩
      rw [resolveHighlights_eq_map, List.pairwise_map]
      refine List.Pairwise.imp_of_mem ?_ (keptIndices_sorted getPredsWindow_sorted)
      intro a b ha hb hab
      have ha2 : a < sents.length := keptIndices_lt a ha
      have hb2 : b < sents.length := keptIndices_lt b hb
      show ((sentencePositions ctx sents).getD a (0, 0)).2 ≤
        ((sentencePositions ctx sents).getD b (0, 0)).1
      rw [getD_eq_getElem_of_lt (by omega), getD_eq_getElem_of_lt (by omega)]
      exact List.pairwise_iff_getElem.mp hpw a b (by omega) (by omega) hab

/-! ## C1: only the first token window is ever scored -/

/-- C1 (code bug): on a passage that tokenizes into two overflow windows,
`_process_single` collates only `example_dataset[0]` and reads only
`sentence_preds[0]`, so it returns the first window's selections alone,
whereas unioning the per-window selections across every window (the
spec's §4.5 step 3, embodied by `process_single_union`) additionally
yields the sentence selected in the second window.  Conjuncts: the stub
tokenizer yields two windows; the code path returns only sentence 0's
span; the all-windows union resolves to both spans; the two outputs
differ. -/
theorem first_window_only :
    (tok0 "q".data (wordsOf sents0)).length = 2
    ∧ process_single tok0 enc0 cls0 1 "q".data ctx0 sents0 = some [⟨0, 6⟩]
    ∧ process_single_union tok0 enc0 cls0 1 "q".data ctx0 sents0 = some [⟨0, 6⟩, ⟨7, 13⟩]
    ∧ ([⟨0, 6⟩] : List Highlight) ≠ [⟨0, 6⟩, ⟨7, 13⟩] := by
  refine ⟨by decide, ?_, ?_, by decide⟩
  · have e1 : ((0 : ℚ) + 5) / ((1 : Nat) : ℚ) = 5 := by norm_num
    have hagg : get_agg_output [[NONE, (0 : Int), NONE]] [[[(0 : ℚ)], [5], [0]]] 1
        = some ([[[(5 : ℚ)]]], [(0 : Int)], [1]) := by
      conv_rhs => rw [← e1]
      rfl
    have hmf : modelForward cls0 1 [[[(0 : ℚ)], [5], [0]]] [[NONE, (0 : Int), NONE]]
        = some [[(0 : Int)]] := by
      rw [modelForward, hagg]
      rfl
    rw [process_single, if_neg (by decide)]
    have h1 : ((tok0 "q".data (wordsOf sents0)).map
        (fun w => prepare_input_features w (wordSentenceIds sents0) 510)).head? =
        some ⟨[101, 11, 102], [0, 1, 1], [1, 1, 1], [NONE, 0, NONE]⟩ := by decide
    rw [h1, Option.some_bind]
    have henc : enc0 ⟨[101, 11, 102], [0, 1, 1], [1, 1, 1], [NONE, 0, NONE]⟩
        = [[(0 : ℚ)], [5], [0]] := by decide
    have hproj :
        (⟨[101, 11, 102], [0, 1, 1], [1, 1, 1], [NONE, 0, NONE]⟩ : Features).sentence_ids
        = [NONE, (0 : Int), NONE] := rfl
    rw [henc, hproj, hmf, Option.map_some']
    decide
  · have e1 : ((0 : ℚ) + 5) / ((1 : Nat) : ℚ) = 5 := by norm_num
    have e2 : ((0 : ℚ) + 7) / ((1 : Nat) : ℚ) = 7 := by norm_num
    have hagg : get_agg_output [[NONE, (0 : Int), NONE], [NONE, (1 : Int), NONE]]
        [[[(0 : ℚ)], [5], [0]], [[(0 : ℚ)], [7], [0]]] 1
        = some ([[[(5 : ℚ)], [0]], [[(7 : ℚ)], [0]]], [0, 1], [1, 1]) := by
      conv_rhs => rw [← e1, ← e2]
      rfl
    have hmf : modelForward cls0 1 [[[(0 : ℚ)], [5], [0]], [[(0 : ℚ)], [7], [0]]]
        [[NONE, (0 : Int), NONE], [NONE, (1 : Int), NONE]]
        = some [[(0 : Int)], [(1 : Int)]] := by
      rw [modelForward, hagg]
      rfl
    rw [process_single_union, if_neg (by decide), if_neg (by decide)]
    have hmape : ((tok0 "q".data (wordsOf sents0)).map
        (fun w => prepare_input_features w (wordSentenceIds sents0) 510)).map enc0 =
        [[[(0 : ℚ)], [5], [0]], [[(0 : ℚ)], [7], [0]]] := by decide
    have hmapids : ((tok0 "q".data (wordsOf sents0)).map
        (fun w => prepare_input_features w (wordSentenceIds sents0) 510)).map
        (·.sentence_ids) = [[NONE, (0 : Int), NONE], [NONE, (1 : Int), NONE]] := by decide
    rw [hmape, hmapids, hmf, Option.map_some']
    decide

end SemanticHighlighter
